import Mathlib

/-!
Verification of the text-classification preprocessing pipeline of the
NLP workshop notebook (`notebook/techlabs_nlp_workshop.ipynb`).

The development shallowly embeds the notebook's Python functions:

* `remove_repetitions` with its two regexes
  `REPEATER_fast = ^(.+?).{0,2}\1+?$` and
  `REPEATER_exact = ^(.+?)(.{0,2}\1)+?$` (Python `re` semantics:
  `.` matches every character except a newline, and `$` matches at the
  end of the string or just before a trailing newline; `re.search` with
  a `^`-anchored pattern anchors at position 0).  A possible
  `AttributeError` (dereferencing `match_exact.group(1)` when the exact
  regex failed although the fast one matched) is modelled by `Option`.
* `preprocess_movie_data` (structural row filter, field coalescing,
  optional language filter, repetition collapsing, newline replacement,
  `int(row[1])` conversion which can raise `ValueError`).
* `tokenize_and_transform` (an unfinished exercise in the notebook: the
  body never fills `transformed_text`, so it returns the empty list).
* `num_to_one_hot` / `y_to_one_hot` / `keras_transform_data`
  (Python list-index assignment semantics, including negative indices
  and the `IndexError` message raised by CPython).
* `split_dataset` (an unfinished exercise; modelled from the spec).

Strings are embedded as `List Char`; Python exceptions as
`Option`/`Except`.
-/

namespace NLPWorkshop

/-! ## Embedding of `remove_repetitions` and its two regexes -/

/-- Every character of the list can be matched by the regex `.`
(anything but a newline). -/
def noNL (l : List Char) : Bool := l.all (fun c => c != '\n')

/-- The string ends with a newline; in that case Python's `$` may also
match just before that final newline. -/
def endsNL (s : List Char) : Bool := s.getLast? == some '\n'

/-- Fuel-driven check that `r` is a concatenation of zero or more copies
of `p` (the `\1+?` part of `REPEATER_fast`, with the mandatory first
copy checked by the caller).  One unit of fuel is spent per copy, so
fuel `r.length` is always enough when `p` is nonempty; for an empty `p`
the regex could not have captured group 1, and the check fails. -/
def isPowF : Nat → List Char → List Char → Bool
  | _, _, [] => true
  | 0, _, _ :: _ => false
  | f+1, p, c :: r =>
      if p = [] then false
      else if (c :: r).take p.length = p then isPowF f p ((c :: r).drop p.length) else false

/-- `r` is a concatenation of zero or more copies of the nonempty `p`. -/
def isPow (p r : List Char) : Bool := isPowF r.length p r

/-- One step of `(.{0,2}\1)` in `REPEATER_exact`: try to strip a gap of
exactly `g` characters (each matched by `.`, hence no newline) followed
by a copy of `p` from the front of `rest`. -/
def blockStep (p rest : List Char) (g : Nat) : Option (List Char) :=
  if noNL (rest.take g) && decide ((rest.drop g).take p.length = p)
    && decide (g ≤ rest.length)
  then some ((rest.drop g).drop p.length) else none

/-- Fuel-driven check that `rest` is a concatenation of zero or more
blocks `gap ++ p` with `gap` of length at most 2 and newline-free
(the `(.{0,2}\1)+?` part of `REPEATER_exact`; the mandatory first block
is checked by the caller requiring `rest ≠ []`). -/
def isBlocksF : Nat → List Char → List Char → Bool
  | _, _, [] => true
  | 0, _, _ :: _ => false
  | f+1, p, c :: r =>
      if p = [] then false
      else
        (match blockStep p (c :: r) 0 with
          | some r2 => isBlocksF f p r2
          | none => false)
        || (match blockStep p (c :: r) 1 with
            | some r2 => isBlocksF f p r2
            | none => false)
        || (match blockStep p (c :: r) 2 with
            | some r2 => isBlocksF f p r2
            | none => false)

/-- `rest` is a concatenation of zero or more blocks `gap ++ p`. -/
def isBlocks (p rest : List Char) : Bool := isBlocksF rest.length p rest

/-- The tail of a `REPEATER_fast` match after group 1: a gap of exactly
`g` dot-matched characters followed by at least one copy of `p`. -/
def fastGapOK (p rest : List Char) (g : Nat) : Bool :=
  noNL (rest.take g) && decide (g ≤ rest.length)
    && decide (rest.drop g ≠ []) && isPow p (rest.drop g)

/-- `REPEATER_fast` matches the whole of `core`: some nonempty
newline-free prefix `p = core.take (i+1)`, a gap of 0–2 characters, and
one or more further copies of `p` reach the end of `core`. -/
def fastCore (core : List Char) : Bool :=
  (List.range core.length).any fun i =>
    noNL (core.take (i+1)) &&
      (fastGapOK (core.take (i+1)) (core.drop (i+1)) 0
        || fastGapOK (core.take (i+1)) (core.drop (i+1)) 1
        || fastGapOK (core.take (i+1)) (core.drop (i+1)) 2)

/-- The portions of `s` that a `^...$`-anchored pattern can span: the
whole string and, when `s` ends with a newline, the string without that
final newline. -/
def matchCores (s : List Char) : List (List Char) := if endsNL s then [s, s.dropLast] else [s]

/-- `re.search(REPEATER_fast, s)` succeeds. -/
def fastMatch (s : List Char) : Bool := (matchCores s).any fastCore

/-- `REPEATER_exact` matches `core` with group 1 of length `ℓ`:
the prefix is newline-free and the remainder is a nonempty sequence of
`gap ++ prefix` blocks. -/
def coreOK (core : List Char) (ℓ : Nat) : Bool :=
  noNL (core.take ℓ) && decide (core.drop ℓ ≠ []) && isBlocks (core.take ℓ) (core.drop ℓ)

/-- `REPEATER_exact` matches `s` with group 1 of length `ℓ` (for one of
the two admissible match spans). -/
def exactCond (s : List Char) (ℓ : Nat) : Bool := (matchCores s).any (fun c => coreOK c ℓ)

/-- Search for the least group-1 length at which `REPEATER_exact`
matches, starting from `ℓ` with the given fuel.  The lazy `(.+?)` makes
the regex engine commit to the shortest successful group 1. -/
def exactSearch (s : List Char) : Nat → Nat → Option Nat
  | 0, _ => none
  | f+1, ℓ => if exactCond s ℓ then some ℓ else exactSearch s (f) (ℓ+1)

/-- `re.search(REPEATER_exact, s).group(1)`: the shortest nonempty
prefix of `s` whose repetition structure covers the rest of the match
span.  (Both admissible spans yield the same group 1, a prefix of `s`.) -/
def exactGroup1 (s : List Char) : Option (List Char) :=
  (exactSearch s s.length 1).map fun ℓ => s.take ℓ

/-- `remove_repetitions` from the notebook.  `none` models the
`AttributeError` that would be raised if the fast regex matched but the
exact one did not (then `match_exact` is `None` and `.group(1)` fails);
`some t` models returning the string `t`. -/
def remove_repetitions (s : List Char) : Option (List Char) :=
  if fastMatch s then exactGroup1 s else some s

/-! ### Inductive views of the two repetition structures -/

/-- `Pow p r` holds when `r` is a concatenation of copies of `p`. -/
inductive Pow (p : List Char) : List Char → Prop
  | nil : Pow p []
  | cons (r : List Char) : Pow p r → Pow p (p ++ r)

/-- `Blocks p r` holds when `r` is a concatenation of blocks
`g ++ p` with each gap `g` of length at most 2 and newline-free. -/
inductive Blocks (p : List Char) : List Char → Prop
  | nil : Blocks p []
  | cons (g r : List Char) : g.length ≤ 2 → noNL g = true → Blocks p r →
      Blocks p (g ++ (p ++ r))

/-! ### Basic helper lemmas -/

lemma take_ne_nil {l : List Char} {n : Nat} (hl : l ≠ []) (hn : 0 < n) : l.take n ≠ [] := by
  intro h
  have h1 : (l.take n).length = min n l.length := List.length_take n l
  have h2 : 0 < l.length := List.length_pos.mpr hl
  rw [h] at h1
  simp at h1
  omega

lemma drop_ne_nil {l : List Char} {n : Nat} : l.drop n ≠ [] ↔ n < l.length := by
  rw [Ne, List.drop_eq_nil_iff]
  omega

lemma getLast?_mem_of_eq : ∀ {s : List Char} {c : Char}, s.getLast? = some c → c ∈ s := by
  intro s
  induction s with
  | nil => simp
  | cons a t ih =>
    intro c h
    cases t with
    | nil =>
      simp [List.getLast?] at h
      simp [h]
    | cons b u =>
      rw [List.getLast?_cons_cons] at h
      exact List.mem_cons_of_mem _ (ih h)

lemma endsNL_mem {s : List Char} (h : endsNL s = true) : '\n' ∈ s := by
  unfold endsNL at h
  rw [beq_iff_eq] at h
  exact getLast?_mem_of_eq h

lemma noNL_mem {l : List Char} {c : Char} (h : noNL l = true) (hc : c ∈ l) : c ≠ '\n' := by
  unfold noNL at h
  rw [List.all_eq_true] at h
  simpa using h c hc

lemma noNL_take {l : List Char} (n : Nat) (h : noNL l = true) : noNL (l.take n) = true := by
  unfold noNL at h ⊢
  rw [List.all_eq_true] at h ⊢
  exact fun c hc => h c (List.take_subset n l hc)

/-! ### `isPow` agrees with `Pow`, `isBlocks` agrees with `Blocks` -/

lemma isPowF_sound : ∀ (f : Nat) (p r : List Char), isPowF f p r = true → Pow p r := by
  intro f
  induction f with
  | zero =>
    intro p r h
    cases r with
    | nil => exact Pow.nil
    | cons c r => simp [isPowF] at h
  | succ f ih =>
    intro p r h
    cases r with
    | nil => exact Pow.nil
    | cons c r =>
      rw [isPowF] at h
      by_cases hp : p = []
      · simp [hp] at h
      · simp only [if_neg hp] at h
        by_cases ht : (c :: r).take p.length = p
        · rw [if_pos ht] at h
          have h2 : (c :: r) = p ++ (c :: r).drop p.length := by
            conv_lhs => rw [← List.take_append_drop p.length (c :: r)]
            rw [ht]
          rw [h2]
          exact Pow.cons _ (ih p _ h)
        · rw [if_neg ht] at h
          exact absurd h (by simp)

lemma pow_isPowF {p : List Char} (hp : p ≠ []) :
    ∀ {r : List Char}, Pow p r → ∀ f, r.length ≤ f → isPowF f p r = true := by
  intro r hr
  induction hr with
  | nil => intro f _; cases f <;> simp [isPowF]
  | cons r hpow ih =>
    intro f hf
    obtain ⟨c, p', rfl⟩ : ∃ c p', p = c :: p' := by
      cases p with
      | nil => exact absurd rfl hp
      | cons c p' => exact ⟨c, p', rfl⟩
    cases f with
    | zero => simp at hf
    | succ f =>
      have hlen : r.length ≤ f := by
        simp [List.length_append] at hf
        omega
      show isPowF (f+1) (c :: p') ((c :: p') ++ r) = true
      rw [List.cons_append, isPowF, if_neg hp]
      rw [← List.cons_append]
      rw [List.take_left, List.drop_left, if_pos rfl]
      exact ih f hlen

lemma isPow_iff {p r : List Char} (hp : p ≠ []) : isPow p r = true ↔ Pow p r := by
  constructor
  · exact isPowF_sound r.length p r
  · intro h
    exact pow_isPowF hp h r.length le_rfl

lemma blockStep_eq_some {p rest r2 : List Char} {g : Nat} :
    blockStep p rest g = some r2 ↔
      noNL (rest.take g) = true ∧ (rest.drop g).take p.length = p ∧ g ≤ rest.length ∧
        r2 = (rest.drop g).drop p.length := by
  unfold blockStep
  split
  · rename_i hcond
    simp only [Bool.and_eq_true, decide_eq_true_eq] at hcond
    simp only [Option.some_inj]
    constructor
    · intro h
      exact ⟨hcond.1.1, hcond.1.2, hcond.2, h.symm⟩
    · intro h
      exact h.2.2.2.symm
  · rename_i hcond
    simp only [Bool.and_eq_true, decide_eq_true_eq, not_and] at hcond
    constructor
    · intro h
      exact absurd h (by simp)
    · intro h
      exact absurd (And.intro (And.intro h.1 h.2.1) h.2.2.1) (by tauto)

lemma isBlocksF_sound : ∀ (f : Nat) (p r : List Char), isBlocksF f p r = true → Blocks p r := by
  intro f
  induction f with
  | zero =>
    intro p r h
    cases r with
    | nil => exact Blocks.nil
    | cons c r => simp [isBlocksF] at h
  | succ f ih =>
    intro p r h
    cases r with
    | nil => exact Blocks.nil
    | cons c r =>
      rw [isBlocksF] at h
      by_cases hp : p = []
      · simp [hp] at h
      · rw [if_neg hp, Bool.or_eq_true, Bool.or_eq_true] at h
        have key : ∀ g : Nat, g ≤ 2 →
            (match blockStep p (c :: r) g with
              | some r2 => isBlocksF f p r2
              | none => false) = true → Blocks p (c :: r) := by
          intro g hg hm
          cases hbs : blockStep p (c :: r) g with
          | none => rw [hbs] at hm; simp at hm
          | some r2 =>
            rw [hbs] at hm
            obtain ⟨hnl, htake, hgle, hr2⟩ := blockStep_eq_some.mp hbs
            have hdec : (c :: r) = (c :: r).take g ++ (p ++ r2) := by
              conv_lhs => rw [← List.take_append_drop g (c :: r)]
              congr 1
              conv_lhs => rw [← List.take_append_drop p.length ((c :: r).drop g)]
              rw [htake, hr2]
            rw [hdec]
            refine Blocks.cons _ _ ?_ hnl (ih p r2 hm)
            have := List.length_take g (c :: r)
            omega
        rcases h with (h | h) | h
        · exact key 0 (by omega) h
        · exact key 1 (by omega) h
        · exact key 2 (by omega) h

lemma isBlocksF_step {p rest r2 : List Char} {f g : Nat} (hg : g ≤ 2)
    (hbs : blockStep p rest g = some r2) (hrec : isBlocksF f p r2 = true)
    (hp : p ≠ []) (hrest : rest ≠ []) : isBlocksF (f+1) p rest = true := by
  obtain ⟨c, r, rfl⟩ := List.exists_cons_of_ne_nil hrest
  rw [isBlocksF, if_neg hp]
  interval_cases g
  · rw [hbs]
    simp [hrec]
  · rw [hbs]
    simp [hrec]
  · rw [hbs]
    simp [hrec]

lemma blocks_isBlocksF {p : List Char} (hp : p ≠ []) :
    ∀ {r : List Char}, Blocks p r → ∀ f, r.length ≤ f → isBlocksF f p r = true := by
  intro r hr
  induction hr with
  | nil => intro f _; cases f <;> simp [isBlocksF]
  | cons g r hg hnl hb ih =>
    intro f hf
    have hpne : (g ++ (p ++ r)) ≠ [] := by
      simp [hp]
    have hplen : 0 < p.length := List.length_pos.mpr hp
    cases f with
    | zero =>
      rw [List.length_append, List.length_append] at hf
      omega
    | succ f =>
      have hstep : blockStep p (g ++ (p ++ r)) g.length = some r := by
        rw [blockStep_eq_some]
        refine ⟨?_, ?_, ?_, ?_⟩
        · rw [List.take_left]
          exact hnl
        · rw [List.drop_left, List.take_left]
        · simp [List.length_append]
        · rw [List.drop_left, List.drop_left]
      have hlen : r.length ≤ f := by
        simp [List.length_append] at hf
        omega
      exact isBlocksF_step hg hstep (ih f hlen) hp hpne

lemma isBlocks_iff {p r : List Char} (hp : p ≠ []) : isBlocks p r = true ↔ Blocks p r := by
  constructor
  · exact isBlocksF_sound r.length p r
  · intro h
    exact blocks_isBlocksF hp h r.length le_rfl

/-! ### Algebra of `Blocks` -/

lemma Blocks.append {p a b : List Char} (ha : Blocks p a) (hb : Blocks p b) :
    Blocks p (a ++ b) := by
  induction ha with
  | nil => simpa
  | cons g r hg hnl hr ih =>
    have := Blocks.cons g (r ++ b) hg hnl ih
    simpa [List.append_assoc] using this

lemma Pow.toBlocks {p r : List Char} (h : Pow p r) : Blocks p r := by
  induction h with
  | nil => exact Blocks.nil
  | cons r hr ih =>
    have := Blocks.cons [] r (by simp) (by simp [noNL]) ih
    simpa using this

lemma Pow.destruct {p r : List Char} (h : Pow p r) (hne : r ≠ []) :
    ∃ r2, r = p ++ r2 ∧ Pow p r2 := by
  cases h with
  | nil => exact absurd rfl hne
  | cons r2 h2 => exact ⟨r2, rfl, h2⟩

lemma Blocks.refine {q u X : List Char} (hu : Blocks q u) (hX : Blocks (q ++ u) X) :
    Blocks q X := by
  induction hX with
  | nil => exact Blocks.nil
  | cons g r hg hnl hr ih =>
    have h1 : Blocks q (u ++ r) := hu.append ih
    have := Blocks.cons g (u ++ r) hg hnl h1
    simpa [List.append_assoc] using this

/-! ### Unpacking the executable matchers -/

lemma fastGapOK_iff {p rest : List Char} {g : Nat} (hp : p ≠ []) :
    fastGapOK p rest g = true ↔
      noNL (rest.take g) = true ∧ g ≤ rest.length ∧ rest.drop g ≠ [] ∧
        Pow p (rest.drop g) := by
  unfold fastGapOK
  rw [Bool.and_eq_true, Bool.and_eq_true, Bool.and_eq_true, isPow_iff hp]
  simp only [decide_eq_true_eq]
  tauto

lemma fastCore_iff {core : List Char} :
    fastCore core = true ↔ ∃ i, i < core.length ∧ noNL (core.take (i+1)) = true ∧
      ∃ g, g ≤ 2 ∧ noNL ((core.drop (i+1)).take g) = true ∧ g ≤ (core.drop (i+1)).length ∧
        (core.drop (i+1)).drop g ≠ [] ∧ Pow (core.take (i+1)) ((core.drop (i+1)).drop g) := by
  unfold fastCore
  rw [List.any_eq_true]
  constructor
  · rintro ⟨i, hmem, hand⟩
    rw [List.mem_range] at hmem
    rw [Bool.and_eq_true, Bool.or_eq_true, Bool.or_eq_true] at hand
    obtain ⟨hnl, hor⟩ := hand
    have hcne : core ≠ [] := by
      intro h
      rw [h] at hmem
      simp at hmem
    have hp : core.take (i+1) ≠ [] := take_ne_nil hcne (by omega)
    refine ⟨i, hmem, hnl, ?_⟩
    rcases hor with (h | h) | h
    · obtain ⟨a, b, c, d⟩ := (fastGapOK_iff hp).mp h
      exact ⟨0, by omega, a, b, c, d⟩
    · obtain ⟨a, b, c, d⟩ := (fastGapOK_iff hp).mp h
      exact ⟨1, by omega, a, b, c, d⟩
    · obtain ⟨a, b, c, d⟩ := (fastGapOK_iff hp).mp h
      exact ⟨2, by omega, a, b, c, d⟩
  · rintro ⟨i, hmem, hnl, g, hg2, ha, hb, hc, hd⟩
    have hcne : core ≠ [] := by
      intro h
      rw [h] at hmem
      simp at hmem
    have hp : core.take (i+1) ≠ [] := take_ne_nil hcne (by omega)
    refine ⟨i, List.mem_range.mpr hmem, ?_⟩
    rw [Bool.and_eq_true, Bool.or_eq_true, Bool.or_eq_true]
    refine ⟨hnl, ?_⟩
    have hOK : fastGapOK (core.take (i+1)) (core.drop (i+1)) g = true :=
      (fastGapOK_iff hp).mpr ⟨ha, hb, hc, hd⟩
    interval_cases g
    · exact Or.inl (Or.inl hOK)
    · exact Or.inl (Or.inr hOK)
    · exact Or.inr hOK

lemma coreOK_iff {core : List Char} {ℓ : Nat} (hℓ : 1 ≤ ℓ) :
    coreOK core ℓ = true ↔ noNL (core.take ℓ) = true ∧ core.drop ℓ ≠ [] ∧
      Blocks (core.take ℓ) (core.drop ℓ) := by
  unfold coreOK
  rw [Bool.and_eq_true, Bool.and_eq_true]
  simp only [decide_eq_true_eq]
  constructor
  · rintro ⟨⟨h1, h2⟩, h3⟩
    have hcne : core ≠ [] := by
      intro h
      rw [h] at h2
      simp at h2
    have hp : core.take ℓ ≠ [] := take_ne_nil hcne (by omega)
    exact ⟨h1, h2, (isBlocks_iff hp).mp h3⟩
  · rintro ⟨h1, h2, h3⟩
    have hcne : core ≠ [] := by
      intro h
      rw [h] at h2
      simp at h2
    have hp : core.take ℓ ≠ [] := take_ne_nil hcne (by omega)
    exact ⟨⟨h1, h2⟩, (isBlocks_iff hp).mpr h3⟩

lemma matchCores_length {s core : List Char} (h : core ∈ matchCores s) :
    core.length ≤ s.length := by
  unfold matchCores at h
  split at h
  · simp at h
    rcases h with rfl | rfl
    · exact le_rfl
    · rw [List.length_dropLast]
      omega
  · simp at h
    rw [h]

lemma matchCores_take {s core : List Char} (h : core ∈ matchCores s) {ℓ : Nat}
    (hℓ : ℓ < core.length) : core.take ℓ = s.take ℓ := by
  unfold matchCores at h
  split at h
  · simp at h
    rcases h with rfl | rfl
    · rfl
    · rw [List.length_dropLast] at hℓ
      rw [List.dropLast_eq_take, List.take_take]
      congr 1
      omega
  · simp at h
    rw [h]

/-! ### The backtracking search for the lazy group 1 -/

lemma exactSearch_some {s : List Char} :
    ∀ {f ℓ0 ℓ : Nat}, exactSearch s f ℓ0 = some ℓ →
      exactCond s ℓ = true ∧ ℓ0 ≤ ℓ ∧ ∀ j, ℓ0 ≤ j → j < ℓ → exactCond s j = false := by
  intro f
  induction f with
  | zero => intro ℓ0 ℓ h; simp [exactSearch] at h
  | succ f ih =>
    intro ℓ0 ℓ h
    rw [exactSearch] at h
    by_cases hc : exactCond s ℓ0 = true
    · rw [if_pos hc] at h
      obtain rfl : ℓ0 = ℓ := by simpa using h
      exact ⟨hc, le_rfl, fun j h1 h2 => by omega⟩
    · rw [if_neg hc] at h
      obtain ⟨a, b, c⟩ := ih h
      refine ⟨a, by omega, fun j h1 h2 => ?_⟩
      rcases Nat.eq_or_lt_of_le h1 with h3 | h3
      · rw [← h3]
        simpa using hc
      · exact c j (by omega) h2

lemma exactSearch_isSome {s : List Char} :
    ∀ {f ℓ0 m : Nat}, ℓ0 ≤ m → m < ℓ0 + f → exactCond s m = true →
      (exactSearch s f ℓ0).isSome = true := by
  intro f
  induction f with
  | zero => intro ℓ0 m h1 h2 _; omega
  | succ f ih =>
    intro ℓ0 m h1 h2 hc
    rw [exactSearch]
    by_cases h : exactCond s ℓ0 = true
    · rw [if_pos h]
      rfl
    · rw [if_neg h]
      have hne : ℓ0 ≠ m := by
        intro he
        rw [he] at h
        exact h hc
      exact ih (by omega) (by omega) hc

/-! ### A fast match guarantees an exact match -/

lemma fastCore_coreOK {core : List Char} (h : fastCore core = true) :
    ∃ ℓ, 1 ≤ ℓ ∧ ℓ ≤ core.length ∧ coreOK core ℓ = true := by
  rw [fastCore_iff] at h
  obtain ⟨i, hi, hnl, g, hg2, hnlg, hgle, hrne, hpow⟩ := h
  refine ⟨i + 1, by omega, by omega, ?_⟩
  rw [coreOK_iff (by omega)]
  have hrestne : core.drop (i+1) ≠ [] := by
    intro hmt
    rw [hmt] at hrne
    simp at hrne
  refine ⟨hnl, hrestne, ?_⟩
  obtain ⟨r2, hr2, hpow2⟩ := hpow.destruct hrne
  have hdec : core.drop (i+1) =
      (core.drop (i+1)).take g ++ (core.take (i+1) ++ r2) := by
    conv_lhs => rw [← List.take_append_drop g (core.drop (i+1))]
    rw [hr2]
  rw [hdec]
  refine Blocks.cons _ _ ?_ hnlg hpow2.toBlocks
  have := List.length_take g (core.drop (i+1))
  omega

lemma fastMatch_search_isSome {s : List Char} (h : fastMatch s = true) :
    (exactSearch s s.length 1).isSome = true := by
  unfold fastMatch at h
  rw [List.any_eq_true] at h
  obtain ⟨core, hmem, hcore⟩ := h
  obtain ⟨ℓ, h1, h2, hOK⟩ := fastCore_coreOK hcore
  have hcond : exactCond s ℓ = true := by
    unfold exactCond
    rw [List.any_eq_true]
    exact ⟨core, hmem, hOK⟩
  have hlen : core.length ≤ s.length := matchCores_length hmem
  exact exactSearch_isSome h1 (by omega) hcond

lemma remove_repetitions_total (s : List Char) : (remove_repetitions s).isSome = true := by
  unfold remove_repetitions
  split
  · rename_i hfast
    unfold exactGroup1
    obtain ⟨ℓ, hℓ⟩ := Option.isSome_iff_exists.mp (fastMatch_search_isSome hfast)
    rw [hℓ]
    rfl
  · rfl

/-! ### The extracted group 1 admits no further fast match -/

lemma no_self_match {s : List Char} {ℓ : Nat} (hℓ1 : 1 ≤ ℓ)
    (hcond : exactCond s ℓ = true)
    (hmin : ∀ j, 1 ≤ j → j < ℓ → exactCond s j = false) :
    fastMatch (s.take ℓ) = false := by
  by_contra hfm
  rw [Bool.not_eq_false] at hfm
  unfold exactCond at hcond
  rw [List.any_eq_true] at hcond
  obtain ⟨core, hmem, hOK⟩ := hcond
  rw [coreOK_iff hℓ1] at hOK
  obtain ⟨hnl, hXne, hblocks⟩ := hOK
  have hℓlt : ℓ < core.length := drop_ne_nil.mp hXne
  have hclen : core.length ≤ s.length := matchCores_length hmem
  have hcoretake : core.take ℓ = s.take ℓ := matchCores_take hmem hℓlt
  have hnlp : noNL (s.take ℓ) = true := hcoretake ▸ hnl
  have hplen : (s.take ℓ).length = ℓ := by
    rw [List.length_take]
    omega
  have hpne : (s.take ℓ) ≠ [] := by
    intro h
    rw [h] at hplen
    simp at hplen
    omega
  -- the whole group 1 is newline-free, so the second admissible span is impossible
  unfold fastMatch at hfm
  rw [List.any_eq_true] at hfm
  obtain ⟨pc, hpcmem, hpfast⟩ := hfm
  have hpcp : pc = s.take ℓ := by
    unfold matchCores at hpcmem
    by_cases hend : endsNL (s.take ℓ) = true
    · exact absurd rfl (noNL_mem hnlp (endsNL_mem hend))
    · rw [if_neg hend] at hpcmem
      simpa using hpcmem
  subst hpcp
  rw [fastCore_iff] at hpfast
  obtain ⟨i, hi, hnlq, g, hg2, hnlg, hgle, hrne, hpow⟩ := hpfast
  rw [hplen] at hi
  -- the inner fast match cannot use up the whole of group 1
  have hilt : i + 1 < ℓ := by
    rcases Nat.lt_or_ge (i+1) ℓ with h | h
    · exact h
    · exfalso
      have hdropnil : (s.take ℓ).drop (i+1) = [] := by
        rw [List.drop_eq_nil_iff]
        omega
      rw [hdropnil] at hrne
      simp at hrne
  -- shorthand for the pieces of the inner fast match
  set q := (s.take ℓ).take (i+1) with hqdef
  set rest := (s.take ℓ).drop (i+1) with hrestdef
  obtain ⟨r2, hr2eq, hpow2⟩ := hpow.destruct hrne
  have hqne : q ≠ [] := take_ne_nil hpne (by omega)
  -- the tail of group 1 after q is itself a q-block sequence
  have hun : rest = rest.take g ++ (q ++ r2) := by
    conv_lhs => rw [← List.take_append_drop g rest]
    rw [hr2eq]
  have hbu : Blocks q rest := by
    rw [hun]
    refine Blocks.cons _ _ ?_ hnlg hpow2.toBlocks
    have := List.length_take g rest
    omega
  -- refine the p-block structure of the part after group 1 into q-blocks
  set X := core.drop ℓ with hXdef
  have hpq : s.take ℓ = q ++ rest := (List.take_append_drop (i+1) (s.take ℓ)).symm
  have hbX : Blocks q X := Blocks.refine hbu (by rw [← hpq]; rw [hcoretake] at hblocks; exact hblocks)
  -- assemble an exact match of s at the shorter group-1 length i+1
  have hsplit : core = (s.take ℓ) ++ X := by
    rw [← hcoretake]
    exact (List.take_append_drop ℓ core).symm
  have hdropcore : core.drop (i+1) = rest ++ X := by
    rw [hsplit, List.drop_append_of_le_length (by omega)]
  have htakecore : core.take (i+1) = q := by
    rw [matchCores_take hmem (by omega), hqdef, List.take_take]
    congr 1
    omega
  have hcond2 : coreOK core (i+1) = true := by
    rw [coreOK_iff (by omega)]
    refine ⟨?_, ?_, ?_⟩
    · rw [htakecore]
      rw [hqdef]
      exact noNL_take _ hnlp
    · rw [hdropcore]
      intro hemp
      have : X = [] := by
        rcases List.append_eq_nil.mp hemp with ⟨_, h2⟩
        exact h2
      exact hXne this
    · rw [htakecore, hdropcore]
      exact hbu.append hbX
  have hcond3 : exactCond s (i+1) = true := by
    unfold exactCond
    rw [List.any_eq_true]
    exact ⟨core, hmem, hcond2⟩
  have := hmin (i+1) (by omega) hilt
  rw [this] at hcond3
  exact Bool.false_ne_true hcond3

/-! ## Embedding of `preprocess_movie_data` and its helpers -/

/-- The membership test `field in [' ', '']` from the notebook's
structural filter: only the empty string and the single-space string
count as blank. -/
def isBlankField (f : String) : Bool := f == " " || f == ""

/-- The reassignment `row = [row[0], row[1], ' '.join(row[2:])]`
performed when a row has more than 3 fields. -/
def coalesce (row : List String) : List String :=
  if 3 < row.length then
    [row.getD 0 "", row.getD 1 "", String.intercalate " " (row.drop 2)]
  else row

/-- `str.replace("\n", " ")`: since the pattern is a single character,
this is a character-wise map. -/
def replaceNL (l : List Char) : List Char := l.map (fun c => if c = '\n' then ' ' else c)

/-- `tokenize_and_transform` from the notebook.  The body is an
unfinished exercise: it initialises `transformed_text = []`, builds a
lazy (never consumed) spaCy pipe, leaves every transformation step as a
TODO comment, and returns the still-empty list.  The boolean flags are
accepted and ignored, exactly as in the source. -/
def tokenize_and_transform (text : List Char) (stemming : Bool := false)
    (lemmatization : Bool := false) (stopword_removal : Bool := false)
    (punctuation_removal : Bool := false) : List String :=
  []

/-- Python whitespace characters stripped by `int(str)` before parsing
(ASCII subset of `str.strip()`). -/
def isPySpace (c : Char) : Bool :=
  c = ' ' || c = '\t' || c = '\n' || c = '\r' || c = '\x0b' || c = '\x0c'

/-- Digit-sequence parser for Python `int()`: decimal digits with
single underscores allowed between digits, at least one digit. -/
def parseDigitsAux : List Char → Nat → Option Nat
  | [], acc => some acc
  | '_' :: c :: rest, acc =>
      if c.isDigit then parseDigitsAux rest (acc * 10 + (c.toNat - 48)) else none
  | c :: rest, acc =>
      if c.isDigit then parseDigitsAux rest (acc * 10 + (c.toNat - 48)) else none

/-- Nonempty digit sequence (underscore separators allowed). -/
def parseDigits : List Char → Option Nat
  | [] => none
  | c :: rest => if c.isDigit then parseDigitsAux rest (c.toNat - 48) else none

/-- Strip leading and trailing whitespace, as `int(str)` does. -/
def pyStrip (l : List Char) : List Char :=
  ((l.dropWhile isPySpace).reverse.dropWhile isPySpace).reverse

/-- Python `int(str)`: optional surrounding whitespace, optional sign,
decimal digits.  `none` models the `ValueError` raised on anything
else.  (Unicode digits are outside the modelled character set.) -/
def pyInt (s : String) : Option Int :=
  match pyStrip s.toList with
  | '+' :: rest => (parseDigits rest).map Int.ofNat
  | '-' :: rest => (parseDigits rest).map (fun n => -(Int.ofNat n))
  | rest => (parseDigits rest).map Int.ofNat

/-- One output record of `preprocess_movie_data`:
`[row[0], int(row[1]), movie_review, tokens]`. -/
structure PRecord where
  url : String
  stars : Int
  text : List Char
  tokens : List String
deriving DecidableEq, Repr

/-- Outcome of one iteration of the `preprocess_movie_data` loop. -/
inductive RowResult where
  | kept (r : PRecord)
  | skipped
  | error
deriving DecidableEq, Repr

/-- The structural filter of `preprocess_movie_data`: the two
`continue` conditions `len(row) < 3` and
`row[0] in [' ',''] or row[1] in [' ',''] or row[2] in [' ','']`. -/
def structDrop (row : List String) : Bool :=
  decide (row.length < 3) || isBlankField (row.getD 0 "")
    || isBlankField (row.getD 1 "") || isBlankField (row.getD 2 "")

/-- One iteration of the loop body of `preprocess_movie_data`.
`langF` stands for the language code predicted by
`langid_model.classify` (the first component of the returned pair). -/
def processRow (langF : String → String) (enable_langid : Bool) (row : List String) :
    RowResult :=
  if row.length < 3 then .skipped
  else if isBlankField (row.getD 0 "") || isBlankField (row.getD 1 "")
      || isBlankField (row.getD 2 "") then .skipped
  else
    let row2 := coalesce row
    if enable_langid && langF (row2.getD 2 "") != "de" then .skipped
    else
      match remove_repetitions (row2.getD 2 "").toList with
      | none => .error
      | some rr =>
        let movie_review := replaceNL rr
        let tokens := tokenize_and_transform movie_review true true true true
        match pyInt (row2.getD 1 "") with
        | none => .error
        | some n => .kept ⟨row2.getD 0 "", n, movie_review, tokens⟩

/-- `preprocess_movie_data`: iterate the loop body over all rows,
collecting kept records in order.  `none` models an uncaught exception
(the whole call raises and no list is returned). -/
def preprocess_movie_data (langF : String → String) (enable_langid : Bool) :
    List (List String) → Option (List PRecord)
  | [] => some []
  | row :: rest =>
      match processRow langF enable_langid row with
      | .error => none
      | .skipped => preprocess_movie_data langF enable_langid rest
      | .kept r => (preprocess_movie_data langF enable_langid rest).map (fun l => r :: l)

/-! ## Embedding of the one-hot encoding functions -/

instance {ε α : Type} [DecidableEq ε] [DecidableEq α] : DecidableEq (Except ε α) := fun a b =>
  match a, b with
  | .ok x, .ok y =>
      if h : x = y then .isTrue (by rw [h]) else
        .isFalse (fun hc => h (by injection hc))
  | .error x, .error y =>
      if h : x = y then .isTrue (by rw [h]) else
        .isFalse (fun hc => h (by injection hc))
  | .ok _, .error _ => .isFalse (fun hc => Except.noConfusion hc)
  | .error _, .ok _ => .isFalse (fun hc => Except.noConfusion hc)

/-- Python index resolution for a sequence of length `n`: a negative
index counts from the end. -/
def pyIndex (i : Int) (n : Nat) : Int := if i < 0 then i + n else i

/-- Python list-index assignment `l[i] = v` for `i : int`: negative
indices count from the end; an index out of range raises
`IndexError: list assignment index out of range`. -/
def pySetIndex (l : List Int) (i : Int) (v : Int) : Except String (List Int) :=
  if 0 ≤ pyIndex i l.length ∧ pyIndex i l.length < (l.length : Int) then
    .ok (l.set (pyIndex i l.length).toNat v)
  else .error "list assignment index out of range"

/-- `num_to_one_hot` from the notebook: `one_hot = [0]*length;
one_hot[num] = 1`.  A negative `length` yields the empty list, as
Python's list repetition does. -/
def num_to_one_hot (num : Int) (length : Int) : Except String (List Int) :=
  pySetIndex (List.replicate length.toNat 0) num 1

/-- `y_to_one_hot` from the notebook: encode each label in order; the
first failing encoding aborts the whole call (the comprehension raises).
In this embedding every element of `y` is an `int`, so the
`isinstance(e, int)` test always takes the encoding branch. -/
def y_to_one_hot (y : List Int) (length : Int) : Except String (List (List Int)) :=
  match y with
  | [] => .ok []
  | e :: rest => do
      let v ← num_to_one_hot e length
      let vs ← y_to_one_hot rest length
      return v :: vs

/-- `np.max` of a list of integers; `none` models the `ValueError`
numpy raises on an empty array. -/
def npMax : List Int → Option Int
  | [] => none
  | x :: xs => some (xs.foldl max x)

/-- The six parallel sequences handed to `keras_transform_data`
(features of an arbitrary type `α`, integer labels). -/
structure DataSplit (α : Type) where
  x_train : List α
  x_val : List α
  x_test : List α
  y_train : List Int
  y_val : List Int
  y_test : List Int
deriving DecidableEq

/-- The result of `keras_transform_data`: features unchanged, labels
one-hot encoded. -/
structure KerasSplit (α : Type) where
  x_train : List α
  x_val : List α
  x_test : List α
  y_train : List (List Int)
  y_val : List (List Int)
  y_test : List (List Int)
deriving DecidableEq

/-- `keras_transform_data` from the notebook:
`num_labels = np.max(data_split['y_train']) + 1`, then one-hot encode
the train, validation and test labels with that width.  The
`np.array(...)` conversions of the feature lists do not change the
modelled values. -/
def keras_transform_data {α : Type} (d : DataSplit α) : Except String (KerasSplit α) :=
  match npMax d.y_train with
  | none => .error "zero-size array to reduction operation maximum which has no identity"
  | some m => do
      let ytr ← y_to_one_hot d.y_train (m + 1)
      let yv ← y_to_one_hot d.y_val (m + 1)
      let yt ← y_to_one_hot d.y_test (m + 1)
      return ⟨d.x_train, d.x_val, d.x_test, ytr, yv, yt⟩

/-! ## Embedding of `split_dataset`

The body of `split_dataset` in the notebook is an unfinished exercise
(all six entries are `None`); §4.4 of the spec states the intended
contract.  The definitions below are therefore modelled from the spec,
not translated from source code. -/

/-- Modelled from the spec: the seeded random permutation used by the
two-stage split.  The spec only requires a deterministic, seed-driven
permutation of the indices; the particular permutation chosen (a
seed-dependent rotation) is irrelevant to the partition invariants
stated in §8.  Missing from the source: the `sklearn` 70%/30% call. -/
def seededPerm (seed : Nat) (l : List Nat) : List Nat := l.rotate (seed % (l.length + 1))

/-- Modelled from the spec: the seed-permuted index sequence of an
`n`-element dataset. -/
def permutedIdx (seed n : Nat) : List Nat := seededPerm seed (List.range n)

/-- Modelled from the spec: the size of the 70% training part, floor
rounding, remainder going to the held-out part. -/
def trainCount (n : Nat) : Nat := 7 * n / 10

/-- Modelled from the spec: the index partition of the training part. -/
def trainIdx (seed n : Nat) : List Nat := (permutedIdx seed n).take (trainCount n)

/-- Modelled from the spec: the held-out 30%, re-permuted with a
derived seed before the second-stage 50%/50% split. -/
def heldIdx (seed n : Nat) : List Nat :=
  seededPerm (seed + 1) ((permutedIdx seed n).drop (trainCount n))

/-- Modelled from the spec: the index partition of the validation part. -/
def valIdx (seed n : Nat) : List Nat := (heldIdx seed n).take ((heldIdx seed n).length / 2)

/-- Modelled from the spec: the index partition of the test part. -/
def testIdx (seed n : Nat) : List Nat := (heldIdx seed n).drop ((heldIdx seed n).length / 2)

/-- Select the entries of `x` at the given indices, in order. -/
def select {α : Type} (x : List α) (is : List Nat) : List α := is.filterMap (fun i => x.get? i)

/-- The dictionary returned by `split_dataset`. -/
structure SplitData (α β : Type) where
  x_train : List α
  x_val : List α
  x_test : List α
  y_train : List β
  y_val : List β
  y_test : List β
deriving DecidableEq

/-- Modelled from the spec: `split_dataset` partitions the parallel
sequences `x`, `y` into train/validation/test parts along the index
partition `trainIdx`/`valIdx`/`testIdx`.  Per section 4.4 the splitter
fails with an input-size error when `N < 3` (it cannot produce three
non-empty partitions), and per section 7(c) the fatal error carries
enough context to identify the offending input size; `.error` models
that raise. -/
def split_dataset {α β : Type} (x : List α) (y : List β) (random_seed : Nat := 42) :
    Except String (SplitData α β) :=
  if x.length < 3 then
    .error ("cannot produce three non-empty partitions from input of size "
      ++ toString x.length)
  else
    .ok ⟨select x (trainIdx random_seed x.length), select x (valIdx random_seed x.length),
      select x (testIdx random_seed x.length), select y (trainIdx random_seed x.length),
      select y (valIdx random_seed x.length), select y (testIdx random_seed x.length)⟩

/-! ### Lemmas about `preprocess_movie_data` -/

lemma structDrop_skipped {row : List String} (h : structDrop row = true)
    (langF : String → String) (el : Bool) : processRow langF el row = .skipped := by
  unfold structDrop at h
  unfold processRow
  by_cases h1 : row.length < 3
  · rw [if_pos h1]
  · rw [if_neg h1]
    have h2 : (isBlankField (row.getD 0 "") || isBlankField (row.getD 1 "")
        || isBlankField (row.getD 2 "")) = true := by
      rw [Bool.or_eq_true, Bool.or_eq_true, Bool.or_eq_true] at h
      rcases h with ((ha | hb) | hc) | hd
      · rw [decide_eq_true_eq] at ha
        exact absurd ha h1
      · rw [hb, Bool.true_or, Bool.true_or]
      · rw [hc, Bool.or_true, Bool.true_or]
      · rw [hd, Bool.or_true]
    rw [if_pos h2]

lemma not_structDrop_not_skipped {row : List String} (h : structDrop row = false)
    (langF : String → String) : processRow langF false row ≠ .skipped := by
  unfold structDrop at h
  rw [Bool.or_eq_false_iff, Bool.or_eq_false_iff, Bool.or_eq_false_iff] at h
  obtain ⟨⟨⟨ha, _⟩, _⟩, _⟩ := h
  rw [decide_eq_false_iff_not] at ha
  unfold processRow
  rw [if_neg ha]
  rw [if_neg (by simp_all)]
  simp only [Bool.false_and, Bool.false_eq_true, if_false]
  cases hrr : remove_repetitions ((coalesce row).getD 2 "").toList with
  | none => simp
  | some rr =>
    cases hp : pyInt ((coalesce row).getD 1 "") with
    | none => simp
    | some n => simp

lemma structDrop_eq_false_iff {row : List String} :
    structDrop row = false ↔ ¬(row.length < 3) ∧ isBlankField (row.getD 0 "") = false
      ∧ isBlankField (row.getD 1 "") = false ∧ isBlankField (row.getD 2 "") = false := by
  unfold structDrop
  rw [Bool.or_eq_false_iff, Bool.or_eq_false_iff, Bool.or_eq_false_iff,
    decide_eq_false_iff_not]
  tauto

lemma processRow_error_iff (langF : String → String) (el : Bool) (row : List String) :
    processRow langF el row = .error ↔
      structDrop row = false ∧ (el = true → langF ((coalesce row).getD 2 "") = "de")
        ∧ pyInt ((coalesce row).getD 1 "") = none := by
  rw [structDrop_eq_false_iff]
  unfold processRow
  by_cases h1 : row.length < 3
  · rw [if_pos h1]
    constructor
    · intro hcon
      exact RowResult.noConfusion hcon
    · rintro ⟨⟨hh, -⟩, -, -⟩
      exact absurd h1 hh
  · rw [if_neg h1]
    by_cases h2 : (isBlankField (row.getD 0 "") || isBlankField (row.getD 1 "")
        || isBlankField (row.getD 2 "")) = true
    · rw [if_pos h2]
      constructor
      · intro hcon
        exact RowResult.noConfusion hcon
      · rintro ⟨⟨-, hb0, hb1, hb2⟩, -, -⟩
        rw [hb0, hb1, hb2] at h2
        exact Bool.noConfusion h2
    · rw [if_neg h2]
      rw [Bool.not_eq_true, Bool.or_eq_false_iff, Bool.or_eq_false_iff] at h2
      obtain ⟨⟨hb0, hb1⟩, hb2⟩ := h2
      by_cases h3 : (el && langF ((coalesce row).getD 2 "") != "de") = true
      · rw [if_pos h3]
        rw [Bool.and_eq_true, bne_iff_ne] at h3
        constructor
        · intro hcon
          exact RowResult.noConfusion hcon
        · rintro ⟨-, hlang, -⟩
          exact absurd (hlang h3.1) h3.2
      · rw [if_neg h3]
        have hlang : el = true → langF ((coalesce row).getD 2 "") = "de" := by
          intro hel
          by_contra hne
          rw [Bool.and_eq_true, bne_iff_ne] at h3
          exact h3 ⟨hel, hne⟩
        cases hrr : remove_repetitions ((coalesce row).getD 2 "").toList with
        | none =>
          have := remove_repetitions_total ((coalesce row).getD 2 "").toList
          rw [hrr] at this
          exact absurd this (by decide)
        | some rr =>
          cases hp : pyInt ((coalesce row).getD 1 "") with
          | none =>
            constructor
            · intro _
              exact ⟨⟨h1, hb0, hb1, hb2⟩, hlang, rfl⟩
            · intro _
              rfl
          | some n =>
            constructor
            · intro hcon
              exact RowResult.noConfusion hcon
            · rintro ⟨-, -, hpn⟩
              exact Option.noConfusion hpn

lemma preprocess_provenance {langF : String → String} {el : Bool} :
    ∀ {rows : List (List String)} {out : List PRecord},
      preprocess_movie_data langF el rows = some out →
      ∀ r ∈ out, ∃ row ∈ rows, processRow langF el row = .kept r := by
  intro rows
  induction rows with
  | nil =>
    intro out h r hr
    unfold preprocess_movie_data at h
    obtain rfl : ([] : List PRecord) = out := by simpa using h
    simp at hr
  | cons row rest ih =>
    intro out h r hr
    rw [preprocess_movie_data] at h
    cases hpr : processRow langF el row with
    | error => rw [hpr] at h; simp at h
    | skipped =>
      rw [hpr] at h
      obtain ⟨row2, hmem, hkept⟩ := ih h r hr
      exact ⟨row2, List.mem_cons_of_mem _ hmem, hkept⟩
    | kept r0 =>
      rw [hpr] at h
      cases hrec : preprocess_movie_data langF el rest with
      | none => rw [hrec] at h; simp at h
      | some l =>
        rw [hrec] at h
        obtain rfl : r0 :: l = out := by simpa using h
        rcases List.mem_cons.mp hr with rfl | hr2
        · exact ⟨row, List.mem_cons_self _ _, hpr⟩
        · obtain ⟨row2, hmem, hkept⟩ := ih hrec r hr2
          exact ⟨row2, List.mem_cons_of_mem _ hmem, hkept⟩

lemma preprocess_no_error_isSome {langF : String → String} {el : Bool} :
    ∀ {rows : List (List String)},
      (∀ r ∈ rows, processRow langF el r ≠ .error) →
      (preprocess_movie_data langF el rows).isSome = true := by
  intro rows
  induction rows with
  | nil => intro _; rfl
  | cons row rest ih =>
    intro h
    rw [preprocess_movie_data]
    cases hpr : processRow langF el row with
    | error => exact absurd hpr (h row (List.mem_cons_self _ _))
    | skipped => exact ih (fun r hr => h r (List.mem_cons_of_mem _ hr))
    | kept r0 =>
      have := ih (fun r hr => h r (List.mem_cons_of_mem _ hr))
      obtain ⟨l, hl⟩ := Option.isSome_iff_exists.mp this
      rw [hl]
      rfl

/-! ### Lemmas about the one-hot encoders -/

lemma num_to_one_hot_ok_len {lab w : Int} {v : List Int}
    (h : num_to_one_hot lab w = .ok v) : v.length = w.toNat := by
  unfold num_to_one_hot pySetIndex at h
  split at h
  · obtain rfl : (List.replicate w.toNat (0:Int)).set _ 1 = v := by
      injection h
    rw [List.length_set, List.length_replicate]
  · exact Except.noConfusion h

lemma num_to_one_hot_ok_of_range {lab w : Int} (h0 : 0 ≤ lab) (h1 : lab < w) :
    num_to_one_hot lab w = .ok ((List.replicate w.toNat 0).set lab.toNat 1) := by
  unfold num_to_one_hot pySetIndex pyIndex
  rw [List.length_replicate]
  rw [if_neg (show ¬lab < 0 by omega)]
  rw [if_pos (show 0 ≤ lab ∧ lab < ((w.toNat : Nat) : Int) by omega)]

lemma set_replicate_getD {w : Nat} {k : Nat} (hk : k < w) (j : Nat) (hj : j < w) :
    ((List.replicate w (0:Int)).set k 1).getD j 0 = if j = k then 1 else 0 := by
  have hlen : ((List.replicate w (0:Int)).set k 1).length = w := by
    rw [List.length_set, List.length_replicate]
  have hjlen : j < ((List.replicate w (0:Int)).set k 1).length := by omega
  rw [List.getD_eq_getElem?_getD, List.getElem?_eq_getElem hjlen, Option.getD_some]
  by_cases hjk : j = k
  · subst hjk
    rw [if_pos rfl]
    exact List.getElem_set_self (by omega)
  · rw [if_neg hjk]
    rw [List.getElem_set_of_ne (fun h => hjk h.symm) 1 (by simpa [List.length_replicate] using hjlen)]
    exact List.getElem_replicate ..

lemma y_to_one_hot_ok_spec {w : Int} :
    ∀ {y : List Int} {out : List (List Int)}, y_to_one_hot y w = .ok out →
      out.length = y.length ∧
      ∀ i lab, y.get? i = some lab →
        ∃ v, out.get? i = some v ∧ num_to_one_hot lab w = .ok v := by
  intro y
  induction y with
  | nil =>
    intro out h
    obtain rfl : ([] : List (List Int)) = out := by
      unfold y_to_one_hot at h
      simpa using h
    exact ⟨rfl, fun i lab h => by simp at h⟩
  | cons e rest ih =>
    intro out h
    rw [y_to_one_hot] at h
    cases he : num_to_one_hot e w with
    | error msg => rw [he] at h; simp [Bind.bind, Except.bind] at h
    | ok v =>
      rw [he] at h
      cases hrest : y_to_one_hot rest w with
      | error msg => rw [hrest] at h; simp [Bind.bind, Except.bind] at h
      | ok vs =>
        rw [hrest] at h
        obtain rfl : v :: vs = out := by simpa [Bind.bind, Except.bind, pure, Except.pure] using h
        obtain ⟨hlen, hspec⟩ := ih hrest
        refine ⟨by simp [hlen], fun i lab hget => ?_⟩
        cases i with
        | zero =>
          obtain rfl : e = lab := by simpa using hget
          exact ⟨v, rfl, he⟩
        | succ i =>
          obtain ⟨v2, hv2, hok⟩ := hspec i lab (by simpa using hget)
          exact ⟨v2, by simpa using hv2, hok⟩

lemma y_to_one_hot_mem {w : Int} {y : List Int} {out : List (List Int)}
    (h : y_to_one_hot y w = .ok out) :
    ∀ v ∈ out, ∃ lab, num_to_one_hot lab w = .ok v := by
  intro v hmem
  obtain ⟨hlen, hspec⟩ := y_to_one_hot_ok_spec h
  obtain ⟨i, hi⟩ := List.get?_of_mem hmem
  have hilt : i < y.length := by
    rw [← hlen]
    by_contra hge
    rw [List.get?_eq_none.mpr (by omega)] at hi
    exact absurd hi (by simp)
  obtain ⟨lab, hlab⟩ : ∃ lab, y.get? i = some lab := ⟨_, List.get?_eq_get hilt⟩
  obtain ⟨v2, hv2, hok⟩ := hspec i lab hlab
  rw [hi] at hv2
  obtain rfl : v = v2 := by
    injection hv2
  exact ⟨lab, hok⟩

lemma keras_transform_data_some {α : Type} {d : DataSplit α} {m : Int}
    (hm : npMax d.y_train = some m) :
    keras_transform_data d = do
      let ytr ← y_to_one_hot d.y_train (m + 1)
      let yv ← y_to_one_hot d.y_val (m + 1)
      let yt ← y_to_one_hot d.y_test (m + 1)
      return ⟨d.x_train, d.x_val, d.x_test, ytr, yv, yt⟩ := by
  unfold keras_transform_data
  rw [hm]

lemma num_to_one_hot_error_of_ge {num len : Int} (h : len ≤ num) :
    num_to_one_hot num len = .error "list assignment index out of range" := by
  unfold num_to_one_hot pySetIndex pyIndex
  rw [List.length_replicate]
  by_cases hneg : num < 0
  · rw [if_pos hneg, if_neg (by omega)]
  · rw [if_neg hneg, if_neg (by omega)]

lemma num_to_one_hot_error_iff {num w : Int} (hw : 0 ≤ w) :
    num_to_one_hot num w = .error "list assignment index out of range" ↔
      (w ≤ num ∨ num < -w) := by
  unfold num_to_one_hot pySetIndex pyIndex
  rw [List.length_replicate]
  by_cases hneg : num < 0
  · rw [if_pos hneg]
    by_cases hc : (0:Int) ≤ num + (w.toNat : Int) ∧ num + (w.toNat : Int) < ((w.toNat : Nat) : Int)
    · rw [if_pos hc]
      constructor
      · intro h
        exact Except.noConfusion h
      · rintro (h | h) <;> (exfalso; omega)
    · rw [if_neg hc]
      constructor
      · intro _
        rw [Decidable.not_and_iff_or_not] at hc
        rcases hc with hc | hc
        · exact Or.inr (by omega)
        · exact absurd (by omega : num + (w.toNat : Int) < ((w.toNat : Nat) : Int)) hc
      · intro _
        rfl
  · rw [if_neg hneg]
    by_cases hc : (0:Int) ≤ num ∧ num < ((w.toNat : Nat) : Int)
    · rw [if_pos hc]
      constructor
      · intro h
        exact Except.noConfusion h
      · rintro (h | h) <;> (exfalso; omega)
    · rw [if_neg hc]
      constructor
      · intro _
        rw [Decidable.not_and_iff_or_not] at hc
        rcases hc with hc | hc
        · exact absurd (by omega : (0:Int) ≤ num) hc
        · exact Or.inl (by omega)
      · intro _
        rfl

lemma num_to_one_hot_neg_spec {num w : Int} (hw : 0 ≤ w) (h0 : -w ≤ num) (h1 : num < 0) :
    ∃ v, num_to_one_hot num w = .ok v ∧ v.length = w.toNat ∧
      ∀ j, j < w.toNat → v.getD j 0 = if (j : Int) = w + num then 1 else 0 := by
  refine ⟨(List.replicate w.toNat 0).set (num + (w.toNat : Int)).toNat 1, ?_, ?_, ?_⟩
  · unfold num_to_one_hot pySetIndex pyIndex
    rw [List.length_replicate, if_pos h1, if_pos (by omega)]
  · rw [List.length_set, List.length_replicate]
  · intro j hj
    have hk : (num + (w.toNat : Int)).toNat < w.toNat := by omega
    rw [set_replicate_getD hk j hj]
    by_cases hc : j = (num + (w.toNat : Int)).toNat
    · rw [if_pos hc, if_pos (by omega)]
    · rw [if_neg hc, if_neg (by omega)]

lemma num_to_one_hot_range_spec {lab w : Int} (h0 : 0 ≤ lab) (h1 : lab < w)
    {v : List Int} (h : num_to_one_hot lab w = .ok v) :
    v.length = w.toNat ∧ ∀ j, j < w.toNat → v.getD j 0 = if (j : Int) = lab then 1 else 0 := by
  rw [num_to_one_hot_ok_of_range h0 h1] at h
  obtain rfl : (List.replicate w.toNat (0:Int)).set lab.toNat 1 = v := by
    injection h
  constructor
  · rw [List.length_set, List.length_replicate]
  · intro j hj
    have hk : lab.toNat < w.toNat := by omega
    rw [set_replicate_getD hk j hj]
    by_cases hc : j = lab.toNat
    · rw [if_pos hc, if_pos (by omega)]
    · rw [if_neg hc, if_neg (by omega)]

/-! ### Lemmas about the splitter -/

lemma select_length {α : Type} {x : List α} :
    ∀ {is : List Nat}, (∀ i ∈ is, i < x.length) → (select x is).length = is.length := by
  intro is
  induction is with
  | nil => intro _; rfl
  | cons i is ih =>
    intro h
    have hi : i < x.length := h i (List.mem_cons_self _ _)
    unfold select at ih ⊢
    rw [List.filterMap_cons, List.get?_eq_get hi]
    simp only [List.length_cons]
    rw [ih (fun j hj => h j (List.mem_cons_of_mem _ hj))]

lemma split_union_perm (seed n : Nat) :
    List.Perm (trainIdx seed n ++ (valIdx seed n ++ testIdx seed n)) (List.range n) := by
  have h1 : List.Perm (permutedIdx seed n) (List.range n) := List.rotate_perm _ _
  have h2 : List.Perm (heldIdx seed n) ((permutedIdx seed n).drop (trainCount n)) :=
    List.rotate_perm _ _
  have h3 : valIdx seed n ++ testIdx seed n = heldIdx seed n :=
    List.take_append_drop _ _
  rw [h3]
  have h4 : List.Perm (trainIdx seed n ++ heldIdx seed n)
      (trainIdx seed n ++ (permutedIdx seed n).drop (trainCount n)) :=
    List.Perm.append_left _ h2
  refine h4.trans ?_
  have h5 : trainIdx seed n ++ (permutedIdx seed n).drop (trainCount n) = permutedIdx seed n :=
    List.take_append_drop _ _
  rw [h5]
  exact h1

lemma split_mem_lt {seed n i : Nat}
    (h : i ∈ trainIdx seed n ∨ i ∈ valIdx seed n ∨ i ∈ testIdx seed n) : i < n := by
  have hmem : i ∈ trainIdx seed n ++ (valIdx seed n ++ testIdx seed n) := by
    rcases h with h | h | h
    · exact List.mem_append_left _ h
    · exact List.mem_append_right _ (List.mem_append_left _ h)
    · exact List.mem_append_right _ (List.mem_append_right _ h)
  have := (split_union_perm seed n).mem_iff.mp hmem
  exact List.mem_range.mp this

lemma split_union_nodup (seed n : Nat) :
    (trainIdx seed n ++ (valIdx seed n ++ testIdx seed n)).Nodup :=
  (split_union_perm seed n).nodup_iff.mpr (List.nodup_range n)

lemma split_disjoint (seed n : Nat) :
    List.Disjoint (trainIdx seed n) (valIdx seed n) ∧
      List.Disjoint (trainIdx seed n) (testIdx seed n) ∧
      List.Disjoint (valIdx seed n) (testIdx seed n) := by
  have hnd := split_union_nodup seed n
  rw [List.nodup_append] at hnd
  obtain ⟨-, hvt, hdisj⟩ := hnd
  rw [List.nodup_append] at hvt
  rw [List.disjoint_append_right] at hdisj
  exact ⟨hdisj.1, hdisj.2, hvt.2.2⟩

lemma split_length_sum (seed n : Nat) :
    (trainIdx seed n).length + (valIdx seed n).length + (testIdx seed n).length = n := by
  have h := (split_union_perm seed n).length_eq
  rw [List.length_append, List.length_append, List.length_range] at h
  omega

/-! ## Claim theorems -/

/-- Claim C1, counterexample.  The claim states that a row with a
whitespace-only field among the first three is excluded from the
output.  The code only drops the exact strings `""` and `" "`: the row
`["  ", "3", "abc"]`, whose first field consists solely of whitespace
(two spaces), passes the structural filter and appears in the output. -/
theorem C1_counterexample :
    ("  ".toList.all (fun c => c == ' ')) = true ∧
    structDrop ["  ", "3", "abc"] = false ∧
    preprocess_movie_data (fun _ => "de") false [["  ", "3", "abc"]] =
      some [⟨"  ", 3, "abc".toList, []⟩] :=
  ⟨by decide, by decide, by decide⟩

/-- Claim C1, amended: a row with fewer than 3 fields, or with any of
the first three fields equal to `""` or `" "` (a single space), is
skipped by the structural filter and hence excluded from the output;
all other rows are not dropped by this structural filter (with the
language filter disabled, they are kept or raise, never skipped); and
every output record originates from a kept input row. -/
theorem C1_structural_filter :
    ∀ (langF : String → String) (el : Bool) (row : List String),
      (structDrop row = true → processRow langF el row = RowResult.skipped) ∧
      (structDrop row = false → processRow langF false row ≠ RowResult.skipped) ∧
      (∀ rows out, preprocess_movie_data langF el rows = some out →
        ∀ r ∈ out, ∃ row2 ∈ rows, processRow langF el row2 = RowResult.kept r) := by
  intro langF el row
  exact ⟨fun h => structDrop_skipped h langF el,
    fun h => not_structDrop_not_skipped h langF,
    fun rows out hp r hr => preprocess_provenance hp r hr⟩

/-- Claim C1, witness at concrete inputs. -/
theorem C1_witness :
    processRow (fun _ => "de") false ["", "3", "abc"] = RowResult.skipped ∧
    processRow (fun _ => "de") false ["u", "3", "abc"] ≠ RowResult.skipped ∧
    (∃ row2 ∈ [["u", "3", "abc"]], processRow (fun _ => "de") false row2 =
      RowResult.kept ⟨"u", 3, "abc".toList, []⟩) :=
  ⟨(C1_structural_filter (fun _ => "de") false ["", "3", "abc"]).1 (by decide),
    (C1_structural_filter (fun _ => "de") false ["u", "3", "abc"]).2.1 (by decide),
    (C1_structural_filter (fun _ => "de") false []).2.2 [["u", "3", "abc"]]
      [⟨"u", 3, "abc".toList, []⟩] (by decide) _ (by decide)⟩

/-- Claim C2: `remove_repetitions` is idempotent - applying it to its
own (non-raising) result returns that result unchanged. -/
theorem C2_remove_repetitions_idempotent (s : List Char) :
    (remove_repetitions s).bind remove_repetitions = remove_repetitions s := by
  by_cases hf : fastMatch s = true
  · obtain ⟨ℓ, hsearch⟩ := Option.isSome_iff_exists.mp (fastMatch_search_isSome hf)
    have hrr : remove_repetitions s = some (s.take ℓ) := by
      unfold remove_repetitions exactGroup1
      rw [if_pos hf, hsearch]
      rfl
    obtain ⟨hcond, hge, hmin⟩ := exactSearch_some hsearch
    have hnofast : fastMatch (s.take ℓ) = false := no_self_match hge hcond hmin
    rw [hrr]
    show remove_repetitions (s.take ℓ) = some (s.take ℓ)
    unfold remove_repetitions
    rw [if_neg (by rw [hnofast]; exact Bool.false_ne_true)]
  · rw [Bool.not_eq_true] at hf
    have hrr : remove_repetitions s = some s := by
      unfold remove_repetitions
      rw [if_neg (by rw [hf]; exact Bool.false_ne_true)]
    rw [hrr]
    exact hrr

/-- Claim C3, counterexample.  Encoding label 7 against width 6 does
raise, but the raised error is CPython's generic
`IndexError: list assignment index out of range`, whose message does
not mention the offending label 7 - contradicting the claim that the
error identifies the offending label. -/
theorem C3_counterexample :
    num_to_one_hot 7 6 = Except.error "list assignment index out of range" ∧
    y_to_one_hot [7] 6 = Except.error "list assignment index out of range" ∧
    ("list assignment index out of range".toList.contains '7') = false :=
  ⟨by decide, by decide, by decide⟩

/-- Claim C3, amended: one-hot encoding a label at or above the width
raises an `IndexError` (with CPython's generic message, which does not
identify the label) rather than silently writing out of bounds or
truncating; `y_to_one_hot` propagates the error. -/
theorem C3_overflow_raises :
    ∀ (num len : Int), len ≤ num →
      num_to_one_hot num len = Except.error "list assignment index out of range" ∧
      y_to_one_hot [num] len = Except.error "list assignment index out of range" := by
  intro num len h
  have h1 := num_to_one_hot_error_of_ge h
  refine ⟨h1, ?_⟩
  rw [y_to_one_hot]
  simp [h1, Bind.bind, Except.bind]

/-- Claim C3, witness at a concrete overflowing label. -/
theorem C3_witness :
    num_to_one_hot 9 5 = Except.error "list assignment index out of range" ∧
    y_to_one_hot [9] 5 = Except.error "list assignment index out of range" :=
  C3_overflow_raises 9 5 (by decide)

/-- Claim C4 (spec-modelled, as `split_dataset` is an unfilled exercise
in the notebook): an input of size `N < 3` makes the splitter raise an
input-size error naming the offending size; an input of size `N ≥ 3`
is split, and every returned train/validation/test partition triple
has lengths summing to the input length, with the three index
partitions pairwise disjoint and their union the full index range. -/
theorem C4_split_partition :
    ∀ (α β : Type) (x : List α) (y : List β) (seed : Nat), x.length = y.length →
      (x.length < 3 → split_dataset x y seed =
        Except.error ("cannot produce three non-empty partitions from input of size "
          ++ toString x.length)) ∧
      (3 ≤ x.length → ∃ s, split_dataset x y seed = Except.ok s) ∧
      (∀ s : SplitData α β, split_dataset x y seed = Except.ok s →
        (s.x_train.length + s.x_val.length + s.x_test.length = x.length) ∧
        (s.y_train.length + s.y_val.length + s.y_test.length = y.length) ∧
        List.Perm (trainIdx seed x.length ++ (valIdx seed x.length ++ testIdx seed x.length))
          (List.range x.length) ∧
        List.Disjoint (trainIdx seed x.length) (valIdx seed x.length) ∧
        List.Disjoint (trainIdx seed x.length) (testIdx seed x.length) ∧
        List.Disjoint (valIdx seed x.length) (testIdx seed x.length)) := by
  intro α β x y seed hxy
  refine ⟨?_, ?_, ?_⟩
  · intro hlt
    unfold split_dataset
    rw [if_pos hlt]
  · intro hge
    unfold split_dataset
    rw [if_neg (by omega)]
    exact ⟨_, rfl⟩
  · intro s hs
    unfold split_dataset at hs
    by_cases hlt : x.length < 3
    · rw [if_pos hlt] at hs
      exact Except.noConfusion hs
    · rw [if_neg hlt] at hs
      obtain rfl : (⟨select x (trainIdx seed x.length), select x (valIdx seed x.length),
          select x (testIdx seed x.length), select y (trainIdx seed x.length),
          select y (valIdx seed x.length), select y (testIdx seed x.length)⟩ :
            SplitData α β) = s := by
        injection hs
      have htx : (select x (trainIdx seed x.length)).length = (trainIdx seed x.length).length :=
        select_length (fun i hi => split_mem_lt (Or.inl hi))
      have hvx : (select x (valIdx seed x.length)).length = (valIdx seed x.length).length :=
        select_length (fun i hi => split_mem_lt (Or.inr (Or.inl hi)))
      have hex : (select x (testIdx seed x.length)).length = (testIdx seed x.length).length :=
        select_length (fun i hi => split_mem_lt (Or.inr (Or.inr hi)))
      have hty : (select y (trainIdx seed x.length)).length = (trainIdx seed x.length).length :=
        select_length (fun i hi => hxy ▸ split_mem_lt (Or.inl hi))
      have hvy : (select y (valIdx seed x.length)).length = (valIdx seed x.length).length :=
        select_length (fun i hi => hxy ▸ split_mem_lt (Or.inr (Or.inl hi)))
      have hey : (select y (testIdx seed x.length)).length = (testIdx seed x.length).length :=
        select_length (fun i hi => hxy ▸ split_mem_lt (Or.inr (Or.inr hi)))
      refine ⟨?_, ?_, split_union_perm seed x.length, (split_disjoint seed x.length).1,
        (split_disjoint seed x.length).2.1, (split_disjoint seed x.length).2.2⟩
      · show (select x (trainIdx seed x.length)).length
            + (select x (valIdx seed x.length)).length
            + (select x (testIdx seed x.length)).length = x.length
        rw [htx, hvx, hex]
        exact split_length_sum seed x.length
      · show (select y (trainIdx seed x.length)).length
            + (select y (valIdx seed x.length)).length
            + (select y (testIdx seed x.length)).length = y.length
        rw [hty, hvy, hey, ← hxy]
        exact split_length_sum seed x.length

/-- Claim C4, witness: a length-1 input raises the input-size error,
and a length-3 input is split into partitions satisfying the
invariants. -/
theorem C4_witness :
    (split_dataset ["a"] [(0:Int)] 7 =
      Except.error "cannot produce three non-empty partitions from input of size 1") ∧
    ((⟨["c", "a"], [], ["b"], [2, 0], [], [1]⟩ : SplitData String Int).x_train.length
        + (⟨["c", "a"], [], ["b"], [2, 0], [], [1]⟩ : SplitData String Int).x_val.length
        + (⟨["c", "a"], [], ["b"], [2, 0], [], [1]⟩ : SplitData String Int).x_test.length = 3) ∧
    List.Perm (trainIdx 42 3 ++ (valIdx 42 3 ++ testIdx 42 3)) (List.range 3) := by
  have h1 := (C4_split_partition String Int ["a"] [0] 7 (by decide)).1 (by decide)
  have h2 := (C4_split_partition String Int ["a", "b", "c"] [0, 1, 2] 42 (by decide)).2.2
    ⟨["c", "a"], [], ["b"], [2, 0], [], [1]⟩ (by decide)
  exact ⟨h1, h2.1, h2.2.2.1⟩

/-- Claim C5, counterexample.  With training labels `[0,1,2,3,4,5]`
(width 6) and validation label `-1`, encoding succeeds and the single
set bit lands at position 5 - not at "the position equal to the label
value" as the claim states for every label. -/
theorem C5_counterexample :
    keras_transform_data (⟨[], [], [], [0, 1, 2, 3, 4, 5], [-1], []⟩ : DataSplit Unit) =
      Except.ok ⟨[], [], [],
        [[1,0,0,0,0,0],[0,1,0,0,0,0],[0,0,1,0,0,0],[0,0,0,1,0,0],[0,0,0,0,1,0],[0,0,0,0,0,1]],
        [[0,0,0,0,0,1]], []⟩ := by
  decide

/-- Claim C5, amended: the one-hot width is `1 + max(training labels)`
and every vector produced by `keras_transform_data` has that fixed
width; every NON-NEGATIVE in-range label is encoded with its single 1
at the position equal to the label value (negative labels, handled in
C10, land at `width + label` instead); for training labels
`[0,1,2,3,4,5]` the width is 6 and the one-hot of `2` is
`[0,0,1,0,0,0]`. -/
theorem C5_one_hot_encoding :
    (keras_transform_data (⟨[], [], [], [0, 1, 2, 3, 4, 5], [2], [0]⟩ : DataSplit Unit) =
      Except.ok ⟨[], [], [],
        [[1,0,0,0,0,0],[0,1,0,0,0,0],[0,0,1,0,0,0],[0,0,0,1,0,0],[0,0,0,0,1,0],[0,0,0,0,0,1]],
        [[0,0,1,0,0,0]], [[1,0,0,0,0,0]]⟩) ∧
    (∀ (α : Type) (d : DataSplit α) (m : Int) (ks : KerasSplit α),
      npMax d.y_train = some m → keras_transform_data d = Except.ok ks →
      ∀ v ∈ ks.y_train ++ ks.y_val ++ ks.y_test, v.length = (m + 1).toNat) ∧
    (∀ (y : List Int) (w : Int) (out : List (List Int)) (i : Nat) (lab : Int),
      y_to_one_hot y w = Except.ok out → y.get? i = some lab → 0 ≤ lab → lab < w →
      ∃ v, out.get? i = some v ∧ v.length = w.toNat ∧
        ∀ j, j < w.toNat → v.getD j 0 = if (j : Int) = lab then 1 else 0) := by
  refine ⟨by decide, ?_, ?_⟩
  · intro α d m ks hm hks v hv
    rw [keras_transform_data_some hm] at hks
    cases h1 : y_to_one_hot d.y_train (m + 1) with
    | error e =>
      rw [h1] at hks
      simp [Bind.bind, Except.bind] at hks
    | ok ytr =>
      rw [h1] at hks
      simp only [Bind.bind, Except.bind] at hks
      cases h2 : y_to_one_hot d.y_val (m + 1) with
      | error e =>
        rw [h2] at hks
        simp [Except.bind] at hks
      | ok yv =>
        rw [h2] at hks
        simp only [Except.bind] at hks
        cases h3 : y_to_one_hot d.y_test (m + 1) with
        | error e =>
          rw [h3] at hks
          simp [Except.bind] at hks
        | ok yt =>
          rw [h3] at hks
          obtain rfl : (⟨d.x_train, d.x_val, d.x_test, ytr, yv, yt⟩ : KerasSplit α) = ks := by
            simpa [Except.bind, pure, Except.pure] using hks
          rcases List.mem_append.mp hv with hv | hv
          · rcases List.mem_append.mp hv with hv | hv
            · obtain ⟨lab, hok⟩ := y_to_one_hot_mem h1 v hv
              exact num_to_one_hot_ok_len hok
            · obtain ⟨lab, hok⟩ := y_to_one_hot_mem h2 v hv
              exact num_to_one_hot_ok_len hok
          · obtain ⟨lab, hok⟩ := y_to_one_hot_mem h3 v hv
            exact num_to_one_hot_ok_len hok
  · intro y w out i lab hok hget h0 h1
    obtain ⟨-, hspec⟩ := y_to_one_hot_ok_spec hok
    obtain ⟨v, hv, hnum⟩ := hspec i lab hget
    obtain ⟨hlen, hpt⟩ := num_to_one_hot_range_spec h0 h1 hnum
    exact ⟨v, hv, hlen, hpt⟩

/-- Claim C5, witness at the concrete example label. -/
theorem C5_witness :
    ∃ v, ([[0, 0, 1, 0, 0, 0]] : List (List Int)).get? 0 = some v ∧ v.length = (6:Int).toNat ∧
      ∀ j, j < (6:Int).toNat → v.getD j 0 = if (j : Int) = 2 then 1 else 0 :=
  C5_one_hot_encoding.2.2 [2] 6 [[0, 0, 1, 0, 0, 0]] 0 2 (by decide) (by decide)
    (by decide) (by decide)

/-- Claim C6: `"hahaha"` collapses to `"ha"`, `"wunderbar"` passes
through unchanged, and in general any string the fast gating regex
does not match passes through unchanged. -/
theorem C6_examples_and_passthrough :
    remove_repetitions "hahaha".toList = some "ha".toList ∧
    remove_repetitions "wunderbar".toList = some "wunderbar".toList ∧
    ∀ s : List Char, fastMatch s = false → remove_repetitions s = some s := by
  refine ⟨by decide, by decide, ?_⟩
  intro s h
  unfold remove_repetitions
  rw [if_neg (by rw [h]; exact Bool.false_ne_true)]

/-- Claim C6, witness: a concrete unmatched string passes through. -/
theorem C6_witness : remove_repetitions "xy".toList = some "xy".toList :=
  C6_examples_and_passthrough.2.2 "xy".toList (by decide)

/-- Claim C7: a row with more than 3 fields that passes the structural
filter has all fields from index 2 onward joined with a single space
into one text field; end to end, `["u","5","part1","part2"]` yields
the output text `"part1 part2"`. -/
theorem C7_field_coalescing :
    (∀ row : List String, structDrop row = false → 3 < row.length →
      coalesce row = [row.getD 0 "", row.getD 1 "", String.intercalate " " (row.drop 2)]) ∧
    preprocess_movie_data (fun _ => "de") false [["u", "5", "part1", "part2"]] =
      some [⟨"u", 5, "part1 part2".toList, []⟩] := by
  constructor
  · intro row _ h3
    unfold coalesce
    rw [if_pos h3]
  · decide

/-- Claim C7, witness at a concrete 4-field row. -/
theorem C7_witness : coalesce ["u", "5", "a", "b"] = ["u", "5", "a b"] := by
  rw [C7_field_coalescing.1 ["u", "5", "a", "b"] (by decide) (by decide)]
  decide

/-- Claim C8, counterexample.  The row `["u","x","abc"]` passes the
structural filter but its stars field `"x"` is not a parseable
integer: `int(row[1])` raises, the whole call aborts (`none`), and the
well-formed second row `["v","4","xyz"]` is lost - contradicting the
claim that no malformed record content causes the function to raise. -/
theorem C8_counterexample :
    preprocess_movie_data (fun _ => "de") false [["u", "x", "abc"], ["v", "4", "xyz"]] =
      none := by
  decide

/-- Claim C8, amended: rows rejected by the structural or language
filter are silently dropped and processing continues, but a row that
passes both filters and whose stars field is not a parseable integer
makes the loop body raise (`RowResult.error`), aborting the whole
call; when no row raises, the call returns a result. -/
theorem C8_error_behaviour :
    ∀ (langF : String → String) (el : Bool) (row : List String) (rows : List (List String)),
      (processRow langF el row = RowResult.error ↔
        (structDrop row = false ∧ (el = true → langF ((coalesce row).getD 2 "") = "de")
          ∧ pyInt ((coalesce row).getD 1 "") = none)) ∧
      ((∀ r ∈ rows, processRow langF el r ≠ RowResult.error) →
        (preprocess_movie_data langF el rows).isSome = true) := by
  intro langF el row rows
  exact ⟨processRow_error_iff langF el row, fun h => preprocess_no_error_isSome h⟩

/-- Claim C8, witness at concrete inputs. -/
theorem C8_witness :
    processRow (fun _ => "de") false ["u", "x", "abc"] = RowResult.error ∧
    (preprocess_movie_data (fun _ => "de") false [["", "3", "a"]]).isSome = true :=
  ⟨(C8_error_behaviour (fun _ => "de") false ["u", "x", "abc"] []).1.mpr
      ⟨by decide, by simp, by decide⟩,
    (C8_error_behaviour (fun _ => "de") false [] [["", "3", "a"]]).2 (by decide)⟩

/-- Claim C9: whenever the fast gating regex matches a string, the
exact extraction regex matches it too, so `remove_repetitions` never
dereferences a failed match and is total. -/
theorem C9_fast_implies_exact :
    ∀ s : List Char, (fastMatch s = true → (exactGroup1 s).isSome = true) ∧
      (remove_repetitions s).isSome = true := by
  intro s
  constructor
  · intro h
    unfold exactGroup1
    obtain ⟨ℓ, hℓ⟩ := Option.isSome_iff_exists.mp (fastMatch_search_isSome h)
    rw [hℓ]
    rfl
  · exact remove_repetitions_total s

/-- Claim C9, witness at a concrete fast-matching string. -/
theorem C9_witness :
    (exactGroup1 "hahaha".toList).isSome = true ∧
    (remove_repetitions "abab".toList).isSome = true :=
  ⟨(C9_fast_implies_exact "hahaha".toList).1 (by decide),
    (C9_fast_implies_exact "abab".toList).2⟩

/-- Claim C10: `num_to_one_hot num length` raises exactly when
`num ≥ length` or `num < -length`; a negative `num` with
`-length ≤ num < 0` silently succeeds, placing the single set bit at
position `length + num` (Python negative indexing). -/
theorem C10_negative_index_encoding :
    ∀ (num w : Int), 0 ≤ w →
      ((num_to_one_hot num w = Except.error "list assignment index out of range") ↔
        (w ≤ num ∨ num < -w)) ∧
      (-w ≤ num → num < 0 → ∃ v, num_to_one_hot num w = Except.ok v ∧
        v.length = w.toNat ∧
        ∀ j, j < w.toNat → v.getD j 0 = if (j : Int) = w + num then 1 else 0) := by
  intro num w hw
  exact ⟨num_to_one_hot_error_iff hw, fun h0 h1 => num_to_one_hot_neg_spec hw h0 h1⟩

/-- Claim C10, witness at the concrete label `-2` with width 6. -/
theorem C10_witness :
    ((num_to_one_hot 8 6 = Except.error "list assignment index out of range") ↔
      ((6:Int) ≤ 8 ∨ (8:Int) < -6)) ∧
    (∃ v, num_to_one_hot (-2) 6 = Except.ok v ∧ v.length = (6:Int).toNat ∧
      ∀ j, j < (6:Int).toNat → v.getD j 0 = if (j : Int) = 6 + -2 then 1 else 0) :=
  ⟨(C10_negative_index_encoding 8 6 (by decide)).1,
    (C10_negative_index_encoding (-2) 6 (by decide)).2 (by decide) (by decide)⟩

end NLPWorkshop
